import Mathlib

/-!
Shallow embedding of prody/utilities/catchall.py.

The module under verification is glue code around external backends
(Bio.Phylo tree construction, scipy linkage/dendrogram, matplotlib).
Pure repository logic (validation, index building, matrix permutation,
the subgroup double loop) is translated directly from the source.
External backends are abstract parameters; numpy arrays are lists of
rationals; Python exceptions are an explicit error type.
-/

set_option autoImplicit false

namespace Catchall

/-- Python exception classes observable from this module: `TypeError`,
`ValueError`, `IndexError` and `NameError`/`UnboundLocalError`
(referencing a local variable that was never assigned). -/
inductive PyError
  | typeError
  | valueError
  | indexError
  | nameError
  deriving DecidableEq

/-- A Python value that can appear inside a `names` list: a string or a
non-string (modelled by an integer, enough to observe the type checks). -/
inductive PyVal
  | pyStr (s : String)
  | pyInt (n : Int)
  deriving DecidableEq

/-- `str(v)`: the coercion numpy applies when building an array from a
list that contains at least one string (mixed lists get a unicode dtype,
so every element is stringified). -/
def PyVal.toPyString : PyVal → String
  | .pyStr s => s
  | .pyInt n => toString n

/-- `isinstance(v, str)`. -/
def PyVal.isStr : PyVal → Bool
  | .pyStr _ => true
  | .pyInt _ => false

/-- A Bio.Phylo tree as observed by this module: `get_terminals()` gives
the named leaves in traversal order, `get_nonterminals()` the internal
node names, and `tree.distance` the pairwise leaf distance, indexed here
by position in the terminal traversal. -/
structure PyTree where
  terminals : List String
  nonterminals : List (Option String)
  dist : Nat → Nat → ℚ

/-- A square numeric matrix (numpy 2-D array); rows are listed in order
and, as for every genuine numpy array, are rectangular. -/
abbrev Mat2 := List (List ℚ)

/-- The `matrix` argument of `reorderMatrix`: a 2-D array, an array of
some other dimensionality, or a non-array object. -/
inductive MatrixArg
  | ndarray2 (rows : Mat2)
  | ndarrayOther (v : List ℚ)
  | notArray

/-- The `tree` argument of `reorderMatrix`: a Bio.Phylo tree or not. -/
inductive TreeArg
  | tree (t : PyTree)
  | notTree

/-- The `names` argument of `reorderMatrix`: a Python list or not. -/
inductive NamesArg
  | pylist (xs : List PyVal)
  | notList

/-- `matrix[indices, :]` — numpy fancy indexing on rows. -/
def selectRows (M : Mat2) (idx : List Nat) : Mat2 :=
  idx.map (fun i => M.getD i [])

/-- `matrix[:, indices]` — numpy fancy indexing on columns. -/
def selectCols (M : Mat2) (idx : List Nat) : Mat2 :=
  M.map (fun row => idx.map (fun j => row.getD j 0))

/-- `np.array(names)` for a list whose first element is a string: the
array gets a unicode dtype and every element is stringified. -/
def npStringArray (xs : List PyVal) : List String :=
  xs.map PyVal.toPyString

/-- `np.where(arr == x)[0]` restricted to its first element: the index of
the first exact string match, `none` when there is no match. -/
def npFirstMatch (arr : List String) (x : String) : Option Nat :=
  match arr with
  | [] => none
  | y :: rest => if y == x then some 0 else (npFirstMatch rest x).map (fun k => k + 1)

/-- The index-building loop of `reorderMatrix`: for each terminal, the
position of the first match of its name in `names`; `[0][0]` on an empty
`np.where` result raises `IndexError`. -/
def buildIndices (cnames : List String) : List String → Except PyError (List Nat)
  | [] => .ok []
  | t :: rest =>
    match npFirstMatch cnames t with
    | none => .error .indexError
    | some k =>
      match buildIndices cnames rest with
      | .ok l => .ok (k :: l)
      | .error e => .error e

/-- `reorderMatrix(matrix, tree, names)`, validation and all, translated
check-for-check from the source. `len(matrix)` is `shape[0]`, the number
of rows; `names[0]` on an empty list raises `IndexError`. -/
def reorderMatrix (matrix : MatrixArg) (tree : TreeArg) (names : Option NamesArg) :
    Except PyError (Mat2 × List Nat) :=
  match matrix with
  | .notArray => .error .typeError
  | .ndarrayOther _ => .error .valueError
  | .ndarray2 rows =>
    if rows.length ≠ (rows.headD []).length then .error .valueError
    else
      let names := names.getD (.pylist ((List.range rows.length).map (fun i => PyVal.pyStr (toString i))))
      match names with
      | .notList => .error .typeError
      | .pylist xs =>
        match xs with
        | [] => .error .indexError
        | x0 :: _ =>
          if ¬ x0.isStr then .error .typeError
          else
            match tree with
            | .notTree => .error .typeError
            | .tree t =>
              if xs.length ≠ rows.length then .error .valueError
              else if xs.length ≠ t.terminals.length then .error .valueError
              else if t.terminals.length ≠ rows.length then .error .valueError
              else
                match buildIndices (npStringArray xs) t.terminals with
                | .error e => .error e
                | .ok indices => .ok (selectRows (selectCols rows indices) indices, indices)

/-- `subgroups[-1].append(x)`: replace the last group by itself with `x`
appended (the subgroups list is never empty at any call site). -/
def appendLast (sg : List (List String)) (x : String) : List (List String) :=
  sg.dropLast ++ [sg.getLastD [] ++ [x]]

/-- The inner loop of `findSubgroups`: `for j, target_j in
enumerate(tree.get_terminals())`, with `j` made an explicit counter.
The body fires when `i == j + 1`. -/
def fsInnerGo (cutoff : ℚ) (d : Nat → Nat → ℚ) (i : Nat) :
    Nat → List String → List (List String) → List (List String)
  | _, [], sg => sg
  | j, x :: rest, sg =>
    fsInnerGo cutoff d i (j + 1) rest
      (if i = j + 1 then
        (let a := appendLast sg x
         if d i j > cutoff then a ++ [[]] else a)
       else sg)

/-- The outer loop of `findSubgroups`: `for i, target_i in
enumerate(tree.get_terminals())`; each iteration runs the full inner
loop over the terminal list. -/
def fsOuterGo (cutoff : ℚ) (d : Nat → Nat → ℚ) (terms : List String) :
    Nat → List String → List (List String) → List (List String)
  | _, [], sg => sg
  | i, _ :: rest, sg => fsOuterGo cutoff d terms (i + 1) rest (fsInnerGo cutoff d i 0 terms sg)

/-- `findSubgroups(tree, cutoff)`. After the double loop the source
appends `str(target_j)` once more: `target_j` is then the last terminal,
and with zero terminals it was never assigned, so Python raises an
unbound-local name error. -/
def findSubgroups (t : PyTree) (cutoff : ℚ) : Except PyError (List (List String)) :=
  let subgroups := fsOuterGo cutoff t.dist t.terminals 0 t.terminals [[]]
  match t.terminals.getLast? with
  | none => .error .nameError
  | some last => .ok (appendLast subgroups last)

/-- Prepend `g` onto the first group of a partition (helper for relating
the imperative last-group accumulator to the declarative runs). -/
def mergeFirst (g : List String) : List (List String) → List (List String)
  | [] => [g]
  | h :: rest => (g ++ h) :: rest

/-- Specification-side definition following the spec text for
`findSubgroups`: the terminal names in traversal order, partitioned into
contiguous runs, with a new run started after position `j` exactly when
`big j` holds (`big j` reads "the distance between the terminals at
positions `j` and `j + 1` exceeds the cutoff"). The final singleton list
for an empty input mirrors the initial `[[]]` accumulator and is only
used from at least one name. -/
def specSplitRuns (big : Nat → Bool) : Nat → List String → List (List String)
  | _, [] => [[]]
  | _, [x] => [[x]]
  | j, x :: y :: rest =>
    if big j then [x] :: specSplitRuns big (j + 1) (y :: rest)
    else mergeFirst [x] (specSplitRuns big (j + 1) (y :: rest))

/-- One effective step of the `findSubgroups` double loop, seen from the
outer index `i`: the inner loop fires exactly once, at `j = i - 1`, when
`1 ≤ i` and that position exists. -/
def stepAt (cutoff : ℚ) (d : Nat → Nat → ℚ) (terms : List String) (i : Nat)
    (sg : List (List String)) : List (List String) :=
  match (if 1 ≤ i then terms.get? (i - 1) else none) with
  | none => sg
  | some x =>
    let a := appendLast sg x
    if d i (i - 1) > cutoff then a ++ [[]] else a

/-- `m` consecutive effective outer steps starting at outer index `i`. -/
def outerSteps (cutoff : ℚ) (d : Nat → Nat → ℚ) (terms : List String) :
    Nat → Nat → List (List String) → List (List String)
  | _, 0, sg => sg
  | i, m + 1, sg => outerSteps cutoff d terms (i + 1) m (stepAt cutoff d terms i sg)

/-- `1. - similarity_matrix`, elementwise. -/
def oneMinusMat (S : Mat2) : Mat2 :=
  S.map (fun row => row.map (fun v => 1 - v))

/-- `scipy.spatial.distance.squareform` on a square matrix: the condensed
upper-triangular vector, row `i` contributing its entries right of the
diagonal (`row[i+1:]`); external validation is out of scope. -/
def squareform (M : Mat2) : List ℚ :=
  (List.range M.length).flatMap (fun i => (M.getD i []).drop (i + 1))

/-- The external scipy backends used by `clusterMatrix`, as black boxes:
`linkage` turns a condensed distance vector into a linkage structure,
and `dendrogram` yields the leaf order and the reordered label list. -/
structure ClusterBackend where
  linkage : List ℚ → List (List ℚ)
  leaves : List (List ℚ) → List Nat
  ivl : List (List ℚ) → Option (List String) → List String

/-- One positional element of the variable-arity tuple returned by
`clusterMatrix`. -/
inductive ClusterRet
  | mat (M : Mat2)
  | idx (l : List Nat)
  | labs (l : List String)
  | link (L : List (List ℚ))
  deriving DecidableEq

/-- `clusterMatrix(distance_matrix, similarity_matrix, labels,
return_linkage, reversed=...)`, translated line-for-line: derive the
distance as `1 - similarity` when only a similarity matrix is given,
keep the supplied form in `matrix`, condense, cluster, read the leaf
order off the dendrogram, optionally reverse, permute rows then columns,
and build the positional return list. -/
def clusterMatrix (B : ClusterBackend) (distance_matrix similarity_matrix : Option Mat2)
    (labels : Option (List String)) (return_linkage : Bool) (rev : Bool) :
    Except PyError (List ClusterRet) :=
  if similarity_matrix = none ∧ distance_matrix = none then .error .valueError
  else
    let pair : Mat2 × Mat2 :=
      match distance_matrix with
      | none => (similarity_matrix.getD [], oneMinusMat (similarity_matrix.getD []))
      | some d => (d, d)
    let matrix := pair.1
    let dmat := pair.2
    let linkage_matrix := B.linkage (squareform dmat)
    let indices0 := B.leaves linkage_matrix
    let sorted_labels0 := B.ivl linkage_matrix labels
    let indices := if rev then indices0.reverse else indices0
    let sorted_labels := if rev then sorted_labels0.reverse else sorted_labels0
    let sorted_matrix := selectCols (selectRows matrix indices) indices
    let rv := [ClusterRet.mat sorted_matrix, ClusterRet.idx indices]
    let rv := if labels.isSome then rv ++ [ClusterRet.labs sorted_labels] else rv
    let rv := if return_linkage then rv ++ [ClusterRet.link linkage_matrix] else rv
    .ok rv

/-- The lower-triangular matrix built by `calcTree` for the Bio.Phylo
`_DistanceMatrix` constructor: row `k` (0-based) keeps `row[:k+1]`. -/
def lowerTriangle : Nat → Mat2 → Mat2
  | _, [] => []
  | k, row :: rest => row.take k :: lowerTriangle (k + 1) rest

/-- The post-construction loop of `calcTree`: every internal node name is
set to `None`; terminals are untouched. -/
def clearNonterminals (t : PyTree) : PyTree :=
  { t with nonterminals := t.nonterminals.map (fun _ => none) }

/-- Python `str.strip()` for the whitespace default, at the character
level so that it evaluates inside the kernel. -/
def pyStrip (s : String) : String :=
  ⟨((s.data.dropWhile Char.isWhitespace).reverse.dropWhile Char.isWhitespace).reverse⟩

/-- Python `str.lower()` for ASCII method names, at the character level. -/
def pyLower (s : String) : String :=
  ⟨s.data.map Char.toLower⟩

/-- `calcTree(names, distance_matrix, method)`: size validation, the
lower-triangular conversion, method dispatch after `strip().lower()`,
then internal-name clearing. The external neighbor-joining and UPGMA
constructors are abstract parameters taking the label list and the
lower-triangular matrix. -/
def calcTree (nj upgma : List String → Mat2 → PyTree)
    (names : List String) (distance_matrix : Mat2) (method : String) :
    Except PyError PyTree :=
  if names.length ≠ distance_matrix.length ∨
      names.length ≠ (distance_matrix.headD []).length then .error .valueError
  else
    let dm := lowerTriangle 1 distance_matrix
    let m := pyLower (pyStrip method)
    if m = "nj" then .ok (clearNonterminals (nj names dm))
    else if m = "upgma" then .ok (clearNonterminals (upgma names dm))
    else .error .valueError

/-- A neighbor-joining stand-in used to instantiate the abstract backend
in witnesses: leaves carry the given labels, one internal node is named. -/
def toyConstructor (nm : List String) (dm : Mat2) : PyTree :=
  ⟨nm, [some (String.append "Inner" (toString dm.length))], fun _ _ => 0⟩

/-- A symmetric leaf-distance function on terminal positions whose only
distance above 1 is between positions 1 and 2. -/
def demoDist (a b : Nat) : ℚ :=
  if a + b = 3 ∧ a * b = 2 then 2 else 1

/-- A concrete four-terminal tree used to exercise `findSubgroups`. -/
def demoTree : PyTree :=
  ⟨["A", "B", "C", "D"], [], demoDist⟩

theorem getD_map {α β : Type} (f : α → β) (dA : α) (dB : β) :
    ∀ (l : List α) (n : Nat), n < l.length → (l.map f).getD n dB = f (l.getD n dA)
  | _ :: _, 0, _ => rfl
  | _ :: l, n + 1, h => getD_map f dA dB l n (Nat.lt_of_succ_lt_succ (by simpa using h))
  | [], _, h => absurd h (by simp)

theorem getD_mem {α : Type} (d : α) :
    ∀ (l : List α) (n : Nat), n < l.length → l.getD n d ∈ l
  | a :: _, 0, _ => List.mem_cons_self a _
  | _ :: l, n + 1, h =>
    List.mem_cons_of_mem _ (getD_mem d l n (Nat.lt_of_succ_lt_succ (by simpa using h)))
  | [], _, h => absurd h (by simp)

theorem range_map_getD {α : Type} (d : α) :
    ∀ l : List α, (List.range l.length).map (fun j => l.getD j d) = l := by
  intro l
  induction l with
  | nil => simp
  | cons a t ih =>
    rw [List.length_cons, List.range_succ_eq_map, List.map_cons, List.map_map]
    exact congrArg (a :: ·) ih

/-- Claim C9: when both a distance and a similarity matrix are supplied,
no conflicting-input error is raised — the similarity matrix is ignored
entirely, the call behaving exactly as if only the distance matrix had
been given (so the distance matrix is both the one condensed for the
linkage routine and the one permuted and returned first), and the call
succeeds. -/
theorem clusterMatrix_both_ignores_similarity (B : ClusterBackend) (D S : Mat2)
    (labels : Option (List String)) (rl rev : Bool) :
    clusterMatrix B (some D) (some S) labels rl rev =
        clusterMatrix B (some D) none labels rl rev
    ∧ ∃ vals, clusterMatrix B (some D) (some S) labels rl rev = .ok vals := by
  constructor
  · simp [clusterMatrix]
  · cases labels <;> cases rl <;> simp [clusterMatrix]

/-- Claim C3: with exactly one matrix form supplied, the first returned
element is that supplied form (never the derived complement) permuted on
rows and columns by the returned index order; and when only a similarity
matrix `S` is supplied, the index order is read off the dendrogram of
the linkage of the condensed form of `1 - S`, so `1 - S` is what is
condensed and handed to the external linkage routine. -/
theorem clusterMatrix_supplied_form (B : ClusterBackend) (D S : Mat2)
    (labels : Option (List String)) (rl rev : Bool) :
    (∃ idx tail, clusterMatrix B (some D) none labels rl rev =
        .ok (ClusterRet.mat (selectCols (selectRows D idx) idx) :: ClusterRet.idx idx :: tail))
    ∧ (∃ idx tail,
        idx = (if rev then (B.leaves (B.linkage (squareform (oneMinusMat S)))).reverse
               else B.leaves (B.linkage (squareform (oneMinusMat S))))
        ∧ clusterMatrix B none (some S) labels rl rev =
            .ok (ClusterRet.mat (selectCols (selectRows S idx) idx)
                 :: ClusterRet.idx idx :: tail)) := by
  constructor
  · cases labels <;> cases rl <;> simp [clusterMatrix]
  · cases labels <;> cases rl <;> cases rev <;> simp [clusterMatrix]

/-- Claim C4: every successful `clusterMatrix` call returns a tuple of
length 2, plus 1 when labels were supplied, plus 1 when the linkage was
requested, in the fixed positional order: reordered matrix, index order,
then sorted labels exactly when labels were given, then the linkage
structure exactly when requested. -/
theorem clusterMatrix_arity (B : ClusterBackend) (dm sm : Option Mat2)
    (labels : Option (List String)) (rl rev : Bool) (vals : List ClusterRet)
    (h : clusterMatrix B dm sm labels rl rev = .ok vals) :
    vals.length = 2 + (if labels.isSome then 1 else 0) + (if rl then 1 else 0)
    ∧ (∃ M, vals.get? 0 = some (.mat M))
    ∧ (∃ l, vals.get? 1 = some (.idx l))
    ∧ (labels.isSome = true → ∃ ls, vals.get? 2 = some (.labs ls))
    ∧ (rl = true →
        ∃ L, vals.get? (2 + (if labels.isSome then 1 else 0)) = some (.link L)) := by
  cases dm <;> cases sm <;> cases labels <;> cases rl <;>
    simp [clusterMatrix] at h <;> simp [← h]

/-- Witness for C4 at a concrete backend, distance matrix, labels and
requested linkage. -/
theorem clusterMatrix_arity_witness :
    ([ClusterRet.mat [[0]], ClusterRet.idx [0], ClusterRet.labs ["y", "x"],
        ClusterRet.link [[1]]] : List ClusterRet).length
        = 2 + (if (some ["x", "y"] : Option (List String)).isSome then 1 else 0)
            + (if true then 1 else 0)
    ∧ (∃ M, ([ClusterRet.mat [[0]], ClusterRet.idx [0], ClusterRet.labs ["y", "x"],
        ClusterRet.link [[1]]] : List ClusterRet).get? 0 = some (.mat M)) := by
  have h := clusterMatrix_arity
    ⟨fun c => [c], fun L => List.range ((L.headD []).length), fun _ lab => (lab.getD []).reverse⟩
    (some [[0, 1], [1, 0]]) none (some ["x", "y"]) true false
    [ClusterRet.mat [[0]], ClusterRet.idx [0], ClusterRet.labs ["y", "x"],
      ClusterRet.link [[1]]] (by rfl)
  exact ⟨h.1, h.2.1⟩

/-- Claim C5: for a square matrix, matching labels, and a recognized
method string (after trimming and lowercasing), `calcTree` returns a
tree whose terminal names are exactly the input labels as a set and
whose internal node names are all cleared. The external tree
constructors are abstract, assumed only to name the leaves with the
labels they are given, which is the documented contract of the backend. -/
theorem calcTree_terminal_names (nj upgma : List String → Mat2 → PyTree)
    (names : List String) (D : Mat2) (method : String)
    (hnj : ∀ nm dm, (nj nm dm).terminals.toFinset = nm.toFinset)
    (hupgma : ∀ nm dm, (upgma nm dm).terminals.toFinset = nm.toFinset)
    (h0 : names.length = D.length) (h1 : names.length = (D.headD []).length)
    (hm : pyLower (pyStrip method) = "nj" ∨ pyLower (pyStrip method) = "upgma") :
    ∃ t, calcTree nj upgma names D method = .ok t
      ∧ t.terminals.toFinset = names.toFinset
      ∧ ∀ x ∈ t.nonterminals, x = none := by
  unfold calcTree
  rw [if_neg (by push_neg; exact ⟨h0, h1⟩)]
  rcases hm with hm | hm <;> rw [hm]
  · refine ⟨clearNonterminals (nj names (lowerTriangle 1 D)), by rw [if_pos rfl], ?_, ?_⟩
    · simpa [clearNonterminals] using hnj names (lowerTriangle 1 D)
    · intro x hx
      have hx2 : x ∈ (nj names (lowerTriangle 1 D)).nonterminals.map
          (fun _ => (none : Option String)) := hx
      rcases List.mem_map.mp hx2 with ⟨y, _, hxy⟩
      exact hxy.symm
  · refine ⟨clearNonterminals (upgma names (lowerTriangle 1 D)),
      by rw [if_neg (by decide), if_pos rfl], ?_, ?_⟩
    · simpa [clearNonterminals] using hupgma names (lowerTriangle 1 D)
    · intro x hx
      have hx2 : x ∈ (upgma names (lowerTriangle 1 D)).nonterminals.map
          (fun _ => (none : Option String)) := hx
      rcases List.mem_map.mp hx2 with ⟨y, _, hxy⟩
      exact hxy.symm

/-- Witness for C5: concrete labels, matrix, and the method `" NJ "`
exercising trimming and lowercasing. -/
theorem calcTree_terminal_names_witness :
    ∃ t, calcTree toyConstructor toyConstructor ["b", "a"] [[0, 1], [1, 0]] " NJ " = .ok t
      ∧ t.terminals.toFinset = (["b", "a"] : List String).toFinset
      ∧ ∀ x ∈ t.nonterminals, x = none :=
  calcTree_terminal_names toyConstructor toyConstructor ["b", "a"] [[0, 1], [1, 0]] " NJ "
    (fun _ _ => rfl) (fun _ _ => rfl) rfl rfl (Or.inl (by decide))

theorem npFirstMatch_lt (x : String) :
    ∀ (arr : List String) (k : Nat), npFirstMatch arr x = some k → k < arr.length := by
  intro arr
  induction arr with
  | nil => intro k h; simp [npFirstMatch] at h
  | cons y rest ih =>
    intro k h
    by_cases hy : (y == x) = true
    · simp [npFirstMatch, hy] at h
      simp only [List.length_cons]
      omega
    · simp [npFirstMatch, hy] at h
      obtain ⟨k0, hk0, hk⟩ := h
      have := ih k0 hk0
      simp only [List.length_cons]
      omega

theorem buildIndices_ok_of_found (cn : List String) :
    ∀ terms : List String, (∀ s ∈ terms, (npFirstMatch cn s).isSome = true) →
      ∃ idx, buildIndices cn terms = .ok idx
        ∧ List.Forall₂ (fun s k => npFirstMatch cn s = some k) terms idx := by
  intro terms
  induction terms with
  | nil => exact fun _ => ⟨[], rfl, List.Forall₂.nil⟩
  | cons t rest ih =>
    intro hall
    obtain ⟨k, hk⟩ := Option.isSome_iff_exists.mp (hall t (List.mem_cons_self t rest))
    obtain ⟨idx, hok, hf⟩ := ih (fun s hs => hall s (List.mem_cons_of_mem t hs))
    exact ⟨k :: idx, by simp [buildIndices, hk, hok], List.Forall₂.cons hk hf⟩

theorem buildIndices_err_of_missing (cn : List String) :
    ∀ terms : List String, (∃ s ∈ terms, npFirstMatch cn s = none) →
      buildIndices cn terms = .error .indexError := by
  intro terms
  induction terms with
  | nil => rintro ⟨s, hs, _⟩; cases hs
  | cons t rest ih =>
    rintro ⟨s, hs, hnone⟩
    rcases List.mem_cons.mp hs with rfl | hs2
    · simp [buildIndices, hnone]
    · cases hk : npFirstMatch cn t with
      | none => simp [buildIndices, hk]
      | some k => simp [buildIndices, hk, ih ⟨s, hs2, hnone⟩]

theorem buildIndices_mem_lt (cn : List String) :
    ∀ (terms : List String) (idx : List Nat), buildIndices cn terms = .ok idx →
      ∀ k ∈ idx, k < cn.length := by
  intro terms
  induction terms with
  | nil =>
    intro idx h k hk
    simp [buildIndices] at h
    subst h
    cases hk
  | cons t rest ih =>
    intro idx h k hk
    cases hm : npFirstMatch cn t with
    | none => simp [buildIndices, hm] at h
    | some k0 =>
      cases hr : buildIndices cn rest with
      | error e => simp [buildIndices, hm, hr] at h
      | ok l =>
        simp [buildIndices, hm, hr] at h
        subst h
        rcases List.mem_cons.mp hk with rfl | hk2
        · exact npFirstMatch_lt t cn k hm
        · exact ih l hr k hk2

theorem buildIndices_ofFn (cn : List String) :
    ∀ (terms : List String) (f : Nat → Nat),
      (∀ i, i < terms.length → npFirstMatch cn (terms.getD i "") = some (f i)) →
      buildIndices cn terms = .ok ((List.range terms.length).map f) := by
  intro terms
  induction terms with
  | nil => intro f _; rfl
  | cons t rest ih =>
    intro f hf
    have h0 : npFirstMatch cn t = some (f 0) := hf 0 (by simp)
    have hrest := ih (fun i => f (i + 1))
      (fun i hi => hf (i + 1) (by simpa using Nat.succ_lt_succ hi))
    simp only [buildIndices, h0, hrest, List.length_cons, List.range_succ_eq_map,
      List.map_cons, List.map_map]
    rfl

theorem selectRC_entry (M : Mat2) (idx : List Nat) (hidx : ∀ k ∈ idx, k < M.length)
    (a b : Nat) (ha : a < idx.length) (hb : b < idx.length) :
    ((selectRows (selectCols M idx) idx).getD a []).getD b 0
      = (M.getD (idx.getD a 0) []).getD (idx.getD b 0) 0 := by
  have h1 : (selectRows (selectCols M idx) idx).getD a []
      = (selectCols M idx).getD (idx.getD a 0) [] :=
    getD_map (fun i => (selectCols M idx).getD i []) 0 [] idx a ha
  have hmem : idx.getD a 0 < M.length := hidx _ (getD_mem 0 idx a ha)
  have h2 : (selectCols M idx).getD (idx.getD a 0) []
      = idx.map (fun j => (M.getD (idx.getD a 0) []).getD j 0) := by
    unfold selectCols
    exact getD_map (fun row => idx.map (fun j => row.getD j 0)) [] [] M (idx.getD a 0) hmem
  rw [h1, h2]
  exact getD_map (fun j => (M.getD (idx.getD a 0) []).getD j 0) 0 0 idx b hb

/-- The fully-applied shape of `reorderMatrix` on a 2-D array, a tree and
a nonempty names list: the source's validation cascade, by iota-zeta
reduction of the embedded matches. -/
theorem reorderMatrix_checks (rows : Mat2) (t : PyTree) (x0 : PyVal) (rest : List PyVal) :
    reorderMatrix (.ndarray2 rows) (.tree t) (some (.pylist (x0 :: rest)))
      = (if rows.length ≠ (rows.headD []).length then .error .valueError
         else if ¬ x0.isStr then .error .typeError
         else if (x0 :: rest).length ≠ rows.length then .error .valueError
         else if (x0 :: rest).length ≠ t.terminals.length then .error .valueError
         else if t.terminals.length ≠ rows.length then .error .valueError
         else
           match buildIndices (npStringArray (x0 :: rest)) t.terminals with
           | .error e => .error e
           | .ok idx => .ok (selectRows (selectCols rows idx) idx, idx)) := rfl

theorem reorderMatrix_valid (M : Mat2) (t : PyTree) (x0 : PyVal) (rest : List PyVal)
    (hsq : M.length = (M.headD []).length) (hstr : x0.isStr = true)
    (hlen1 : (x0 :: rest).length = M.length)
    (hlen2 : (x0 :: rest).length = t.terminals.length) :
    reorderMatrix (.ndarray2 M) (.tree t) (some (.pylist (x0 :: rest)))
      = match buildIndices (npStringArray (x0 :: rest)) t.terminals with
        | .error e => .error e
        | .ok idx => .ok (selectRows (selectCols M idx) idx, idx) := by
  have h1 : ¬ (M.length ≠ (M.headD []).length) := fun hne => hne hsq
  have h2 : ¬ ¬ (x0.isStr = true) := not_not_intro hstr
  have h3 : ¬ ((x0 :: rest).length ≠ M.length) := fun hne => hne hlen1
  have h4 : ¬ ((x0 :: rest).length ≠ t.terminals.length) := fun hne => hne hlen2
  have h5 : ¬ (t.terminals.length ≠ M.length) := fun hne => hne (hlen2.symm.trans hlen1)
  rw [reorderMatrix_checks M t x0 rest, if_neg h1, if_neg h2, if_neg h3, if_neg h4, if_neg h5]

/-- Claim C1: past validation, `reorderMatrix` builds, for each terminal
in the tree's own traversal order, the position of the first exact match
of the terminal's name in `names`; it returns the matrix permuted by
that index list on both rows and columns together with the index list,
and if some terminal's name has no match it fails with `IndexError`
instead of returning. -/
theorem reorderMatrix_tree_order (M : Mat2) (t : PyTree) (x0 : PyVal) (rest : List PyVal)
    (hsq : M.length = (M.headD []).length) (hstr : x0.isStr = true)
    (hlen1 : (x0 :: rest).length = M.length)
    (hlen2 : (x0 :: rest).length = t.terminals.length) :
    ((∀ s ∈ t.terminals, (npFirstMatch (npStringArray (x0 :: rest)) s).isSome = true) →
      ∃ idx, reorderMatrix (.ndarray2 M) (.tree t) (some (.pylist (x0 :: rest)))
            = .ok (selectRows (selectCols M idx) idx, idx)
        ∧ List.Forall₂ (fun s k => npFirstMatch (npStringArray (x0 :: rest)) s = some k)
            t.terminals idx
        ∧ ∀ a b, a < idx.length → b < idx.length →
            ((selectRows (selectCols M idx) idx).getD a []).getD b 0
              = (M.getD (idx.getD a 0) []).getD (idx.getD b 0) 0)
    ∧ ((∃ s ∈ t.terminals, npFirstMatch (npStringArray (x0 :: rest)) s = none) →
        reorderMatrix (.ndarray2 M) (.tree t) (some (.pylist (x0 :: rest)))
          = .error .indexError) := by
  have hv := reorderMatrix_valid M t x0 rest hsq hstr hlen1 hlen2
  constructor
  · intro hall
    obtain ⟨idx, hok, hf⟩ := buildIndices_ok_of_found _ _ hall
    refine ⟨idx, by rw [hv, hok], hf, ?_⟩
    intro a b ha hb
    refine selectRC_entry M idx ?_ a b ha hb
    intro k hk
    have hcn := buildIndices_mem_lt _ _ _ hok k hk
    have : (npStringArray (x0 :: rest)).length = M.length := by
      simpa [npStringArray] using hlen1
    omega
  · intro hmiss
    rw [hv, buildIndices_err_of_missing _ _ hmiss]

/-- Witness for C1, exercising the index-not-found branch: the terminal
name `"z"` is absent from `names`, so the call fails with `IndexError`. -/
theorem reorderMatrix_tree_order_witness :
    reorderMatrix (.ndarray2 [[0]]) (.tree ⟨["z"], [], fun _ _ => 0⟩)
        (some (.pylist [.pyStr "a"])) = .error .indexError :=
  (reorderMatrix_tree_order [[0]] ⟨["z"], [], fun _ _ => 0⟩ (.pyStr "a") [] rfl rfl rfl rfl).2
    ⟨"z", by simp, rfl⟩

theorem selectRows_range (M : Mat2) : selectRows M (List.range M.length) = M := by
  unfold selectRows
  exact range_map_getD [] M

theorem selectCols_range (M : Mat2) (hrect : ∀ row ∈ M, row.length = M.length) :
    selectCols M (List.range M.length) = M := by
  unfold selectCols
  have h : ∀ row ∈ M, (List.range M.length).map (fun j => row.getD j 0) = row := by
    intro row hrow
    rw [← hrect row hrow]
    exact range_map_getD 0 row
  calc M.map (fun row => (List.range M.length).map (fun j => row.getD j 0))
      = M.map id := List.map_congr_left h
    _ = M := List.map_id M

/-- Claim C6: when the names are already in the tree's terminal
traversal order — each terminal's first matching label sits at the
terminal's own position — `reorderMatrix` returns the input matrix
unchanged, with the identity index list `[0, 1, ..., n-1]`. -/
theorem reorderMatrix_roundtrip (M : Mat2) (t : PyTree) (x0 : PyVal) (rest : List PyVal)
    (hsq : M.length = (M.headD []).length) (hstr : x0.isStr = true)
    (hlen1 : (x0 :: rest).length = M.length)
    (hlen2 : (x0 :: rest).length = t.terminals.length)
    (hrect : ∀ row ∈ M, row.length = M.length)
    (hfirst : ∀ i, i < t.terminals.length →
      npFirstMatch (npStringArray (x0 :: rest)) (t.terminals.getD i "") = some i) :
    reorderMatrix (.ndarray2 M) (.tree t) (some (.pylist (x0 :: rest)))
      = .ok (M, List.range M.length) := by
  have hb := buildIndices_ofFn (npStringArray (x0 :: rest)) t.terminals id hfirst
  have hterm : t.terminals.length = M.length := hlen2.symm.trans hlen1
  rw [reorderMatrix_valid M t x0 rest hsq hstr hlen1 hlen2, hb, List.map_id, hterm]
  show Except.ok (selectRows (selectCols M (List.range M.length)) (List.range M.length),
    List.range M.length) = Except.ok (M, List.range M.length)
  rw [selectCols_range M hrect, selectRows_range M]

/-- Witness for C6 at a concrete 2x2 matrix with labels already in tree
order. -/
theorem reorderMatrix_roundtrip_witness :
    reorderMatrix (.ndarray2 [[1, 2], [3, 4]]) (.tree ⟨["a", "b"], [], fun _ _ => 0⟩)
        (some (.pylist [.pyStr "a", .pyStr "b"])) = .ok ([[1, 2], [3, 4]], List.range 2) :=
  reorderMatrix_roundtrip [[1, 2], [3, 4]] ⟨["a", "b"], [], fun _ _ => 0⟩
    (.pyStr "a") [.pyStr "b"] rfl rfl rfl rfl
    (by intro row hrow; simp at hrow; rcases hrow with rfl | rfl <;> rfl)
    (by
      intro i hi
      simp only [List.length_cons, List.length_nil] at hi
      interval_cases i <;> rfl)

/-- Counterexample to C7 as stated: a `names` list containing a
non-string element (`5` at position 1, behind a string at position 0)
passes validation and the call returns normally — numpy stringifies the
mixed list, so `5` matches the terminal named `"5"` — instead of failing
with a type error. -/
theorem reorderMatrix_names_check_counterexample :
    reorderMatrix (.ndarray2 [[0, 1], [1, 0]])
        (.tree ⟨["a", "5"], [], fun _ _ => 0⟩)
        (some (.pylist [.pyStr "a", .pyInt 5]))
      = .ok ([[0, 1], [1, 0]], [0, 1])
    ∧ PyVal.isStr (.pyInt 5) = false := ⟨rfl, rfl⟩

/-- Claim C7, amended: `reorderMatrix` fails with a type error when the
matrix is not an array, when the tree is not a tree (the other checks
passing), and when the FIRST element of `names` is not a string — only
`names[0]` is type-checked, so non-strings at later positions are not
detected; it fails with a value error when the matrix is not 2-D or not
square, and, the type checks passing, whenever the dimensions disagree
(names count vs. matrix size, names count vs. terminal count, terminal
count vs. matrix size). -/
theorem reorderMatrix_validation :
    (∀ tree names, reorderMatrix .notArray tree names = .error .typeError)
    ∧ (∀ v tree names, reorderMatrix (.ndarrayOther v) tree names = .error .valueError)
    ∧ (∀ (rows : Mat2) tree names, rows.length ≠ (rows.headD []).length →
        reorderMatrix (.ndarray2 rows) tree names = .error .valueError)
    ∧ (∀ (rows : Mat2) tree, rows.length = (rows.headD []).length →
        reorderMatrix (.ndarray2 rows) tree (some .notList) = .error .typeError)
    ∧ (∀ (rows : Mat2) tree (x0 : PyVal) (rest : List PyVal),
        rows.length = (rows.headD []).length → x0.isStr = false →
        reorderMatrix (.ndarray2 rows) tree (some (.pylist (x0 :: rest)))
          = .error .typeError)
    ∧ (∀ (rows : Mat2) (x0 : PyVal) (rest : List PyVal),
        rows.length = (rows.headD []).length → x0.isStr = true →
        reorderMatrix (.ndarray2 rows) .notTree (some (.pylist (x0 :: rest)))
          = .error .typeError)
    ∧ (∀ (rows : Mat2) (t : PyTree) (x0 : PyVal) (rest : List PyVal),
        rows.length = (rows.headD []).length → x0.isStr = true →
        ((x0 :: rest).length ≠ rows.length ∨ (x0 :: rest).length ≠ t.terminals.length
          ∨ t.terminals.length ≠ rows.length) →
        reorderMatrix (.ndarray2 rows) (.tree t) (some (.pylist (x0 :: rest)))
          = .error .valueError) := by
  refine ⟨fun _ _ => rfl, fun _ _ _ => rfl, ?_, ?_, ?_, ?_, ?_⟩
  · intro rows tree names h
    simp only [reorderMatrix]
    rw [if_pos h]
  · intro rows tree hsq
    have h1 : ¬ (rows.length ≠ (rows.headD []).length) := fun hne => hne hsq
    simp only [reorderMatrix, Option.getD_some]
    rw [if_neg h1]
  · intro rows tree x0 rest hsq hstr
    have h1 : ¬ (rows.length ≠ (rows.headD []).length) := fun hne => hne hsq
    have h2 : ¬ (x0.isStr = true) := by simp [hstr]
    cases tree <;>
      · simp only [reorderMatrix, Option.getD_some]
        rw [if_neg h1, if_pos h2]
  · intro rows x0 rest hsq hstr
    have h1 : ¬ (rows.length ≠ (rows.headD []).length) := fun hne => hne hsq
    have h2 : ¬ ¬ (x0.isStr = true) := not_not_intro hstr
    simp only [reorderMatrix, Option.getD_some]
    rw [if_neg h1, if_neg h2]
  · intro rows t x0 rest hsq hstr h
    have h1 : ¬ (rows.length ≠ (rows.headD []).length) := fun hne => hne hsq
    have h2 : ¬ ¬ (x0.isStr = true) := not_not_intro hstr
    rw [reorderMatrix_checks rows t x0 rest, if_neg h1, if_neg h2]
    by_cases c1 : (x0 :: rest).length = rows.length
    · rw [if_neg (not_not_intro c1)]
      by_cases c2 : (x0 :: rest).length = t.terminals.length
      · rw [if_neg (not_not_intro c2)]
        have c3 : t.terminals.length ≠ rows.length := by
          rcases h with h | h | h
          exacts [absurd c1 h, absurd c2 h, h]
        rw [if_pos c3]
      · rw [if_pos c2]
    · rw [if_pos c1]

/-- Witness for C7 (amended): a names list whose first element is the
non-string `7` is rejected with a type error. -/
theorem reorderMatrix_validation_witness :
    reorderMatrix (.ndarray2 [[0]]) (.tree ⟨["0"], [], fun _ _ => 0⟩)
        (some (.pylist [.pyInt 7])) = .error .typeError :=
  reorderMatrix_validation.2.2.2.2.1 [[0]] (.tree ⟨["0"], [], fun _ _ => 0⟩)
    (.pyInt 7) [] rfl rfl

theorem appendLast_concat (pre : List (List String)) (g : List String) (x : String) :
    appendLast (pre ++ [g]) x = pre ++ [g ++ [x]] := by
  unfold appendLast
  rw [List.dropLast_concat, List.getLastD_concat]

theorem mergeFirst_mergeFirst (g x : List String) (l : List (List String)) (h : l ≠ []) :
    mergeFirst g (mergeFirst x l) = mergeFirst (g ++ x) l := by
  cases l with
  | nil => exact absurd rfl h
  | cons a t => simp [mergeFirst, List.append_assoc]

theorem mergeFirst_nil_left (l : List (List String)) (h : l ≠ []) : mergeFirst [] l = l := by
  cases l with
  | nil => exact absurd rfl h
  | cons a t => simp [mergeFirst]

theorem specSplitRuns_ne_nil (big : Nat → Bool) :
    ∀ (j : Nat) (xs : List String), specSplitRuns big j xs ≠ [] := by
  intro j xs
  match xs with
  | [] => simp [specSplitRuns]
  | [x] => simp [specSplitRuns]
  | x :: y :: rest =>
    rw [specSplitRuns]
    by_cases hb : big j
    · simp [hb]
    · simp only [hb, Bool.false_eq_true, if_false]
      cases specSplitRuns big (j + 1) (y :: rest) <;> simp [mergeFirst]

theorem drop_cons_of_getq {α : Type} :
    ∀ (l : List α) (j : Nat) (x : α), l.get? j = some x → l.drop j = x :: l.drop (j + 1) := by
  intro l
  induction l with
  | nil => intro j x h; simp at h
  | cons a t ih =>
    intro j x h
    cases j with
    | zero => simp at h; subst h; simp
    | succ j0 =>
      simp only [List.get?_cons_succ] at h
      simp only [List.drop_succ_cons]
      exact ih j0 x h

theorem fsInnerGo_spec (cutoff : ℚ) (d : Nat → Nat → ℚ) (i : Nat) :
    ∀ (xs : List String) (j : Nat) (sg : List (List String)),
      fsInnerGo cutoff d i j xs sg =
        match (if j + 1 ≤ i then xs.get? (i - 1 - j) else none) with
        | none => sg
        | some x =>
          let a := appendLast sg x
          if d i (i - 1) > cutoff then a ++ [[]] else a := by
  intro xs
  induction xs with
  | nil =>
    intro j sg
    by_cases hj : j + 1 ≤ i
    · simp [fsInnerGo, hj]
    · simp [fsInnerGo, hj]
  | cons x rest ih =>
    intro j sg
    by_cases hij : i = j + 1
    · subst hij
      rw [fsInnerGo, ih (j + 1)]
      have hfalse : ¬ (j + 1 + 1 ≤ j + 1) := by omega
      have hidx : j + 1 - 1 - j = 0 := by omega
      have hii : j + 1 - 1 = j := by omega
      simp [hfalse, hidx, hii]
    · rw [fsInnerGo, ih (j + 1), if_neg hij]
      by_cases h2 : j + 1 + 1 ≤ i
      · have h1 : j + 1 ≤ i := by omega
        have hidx : i - 1 - j = (i - 1 - (j + 1)) + 1 := by omega
        simp [h1, h2, hidx]
      · have h1 : ¬ (j + 1 ≤ i) := by omega
        simp [h1, h2]

theorem fsInnerGo_stepAt (cutoff : ℚ) (d : Nat → Nat → ℚ) (terms : List String) (i : Nat)
    (sg : List (List String)) :
    fsInnerGo cutoff d i 0 terms sg = stepAt cutoff d terms i sg := by
  rw [fsInnerGo_spec cutoff d i terms 0 sg]
  rfl

theorem fsOuterGo_outerSteps (cutoff : ℚ) (d : Nat → Nat → ℚ) (terms : List String) :
    ∀ (l : List String) (i : Nat) (sg : List (List String)),
      fsOuterGo cutoff d terms i l sg = outerSteps cutoff d terms i l.length sg := by
  intro l
  induction l with
  | nil => intro i sg; rfl
  | cons x rest ih =>
    intro i sg
    rw [fsOuterGo, fsInnerGo_stepAt, ih]
    rfl

theorem outerSteps_spec (cutoff : ℚ) (d : Nat → Nat → ℚ) (terms : List String) (lst : String)
    (hlast : terms.getLast? = some lst) :
    ∀ (k j : Nat) (pre : List (List String)) (g : List String),
      j + (k + 1) = terms.length →
      appendLast (outerSteps cutoff d terms (j + 1) k (pre ++ [g])) lst
        = pre ++ mergeFirst g
            (specSplitRuns (fun m => decide (d (m + 1) m > cutoff)) j (terms.drop j)) := by
  intro k
  induction k with
  | zero =>
    intro j pre g hj
    rw [outerSteps, appendLast_concat]
    have hg : terms.get? j = some lst := by
      rw [List.getLast?_eq_getElem?] at hlast
      have hj1 : terms.length - 1 = j := by omega
      rw [hj1] at hlast
      rw [List.get?_eq_getElem?]
      exact hlast
    have hd : terms.drop j = [lst] := by
      rw [drop_cons_of_getq terms j lst hg]
      have hle : terms.length ≤ j + 1 := by omega
      simp [List.drop_eq_nil_of_le hle]
    rw [hd]
    simp [specSplitRuns, mergeFirst]
  | succ k0 ih =>
    intro j pre g hj
    have hjlt : j < terms.length := by omega
    obtain ⟨x, hx⟩ : ∃ x, terms.get? j = some x := by
      cases hq : terms.get? j with
      | none =>
        have := List.get?_eq_none.mp hq
        omega
      | some x => exact ⟨x, rfl⟩
    rw [outerSteps]
    have hstep : stepAt cutoff d terms (j + 1) (pre ++ [g])
        = if d (j + 1) j > cutoff then (pre ++ [g ++ [x]]) ++ [[]]
          else pre ++ [g ++ [x]] := by
      unfold stepAt
      have h1 : 1 ≤ j + 1 := by omega
      have h2 : j + 1 - 1 = j := by omega
      simp only [h1, if_pos, h2, hx, appendLast_concat]
    rw [hstep]
    have hdropj : terms.drop j = x :: terms.drop (j + 1) := drop_cons_of_getq terms j x hx
    obtain ⟨y, rest2, hyr⟩ : ∃ y rest2, terms.drop (j + 1) = y :: rest2 := by
      cases hq : terms.drop (j + 1) with
      | nil =>
        have := List.drop_eq_nil_iff.mp hq
        omega
      | cons y r => exact ⟨y, r, rfl⟩
    by_cases hbig : d (j + 1) j > cutoff
    · rw [if_pos hbig]
      have hih := ih (j + 1) (pre ++ [g ++ [x]]) [] (by omega)
      rw [hih, hdropj, hyr, specSplitRuns]
      rw [if_pos (by simpa using hbig)]
      rw [mergeFirst_nil_left _ (specSplitRuns_ne_nil _ _ _)]
      rw [← hyr]
      simp [mergeFirst, List.append_assoc]
    · rw [if_neg hbig]
      have hih := ih (j + 1) pre (g ++ [x]) (by omega)
      rw [hih, hdropj, hyr, specSplitRuns]
      rw [if_neg (by simpa using hbig)]
      rw [← hyr]
      rw [mergeFirst_mergeFirst g [x] _ (by rw [hyr]; exact specSplitRuns_ne_nil _ _ _)]

/-- The master characterization: on any tree with at least one terminal,
`findSubgroups` returns exactly the spec-side contiguous runs, split
after position `m` when the distance between the terminals at positions
`m + 1` and `m` (the order in which the source queries the tree) exceeds
the cutoff. -/
theorem findSubgroups_eq_spec (t : PyTree) (cutoff : ℚ) (hne : t.terminals ≠ []) :
    findSubgroups t cutoff
      = .ok (specSplitRuns (fun m => decide (t.dist (m + 1) m > cutoff)) 0 t.terminals) := by
  obtain ⟨lst, hlast⟩ : ∃ lst, t.terminals.getLast? = some lst := by
    cases hq : t.terminals.getLast? with
    | none => exact absurd (List.getLast?_eq_none_iff.mp hq) hne
    | some lst => exact ⟨lst, rfl⟩
  obtain ⟨m, hm⟩ : ∃ m, t.terminals.length = m + 1 := by
    refine ⟨t.terminals.length - 1, ?_⟩
    cases hq : t.terminals with
    | nil => exact absurd hq hne
    | cons a r => simp [hq]
  simp only [findSubgroups]
  rw [hlast]
  rw [fsOuterGo_outerSteps, hm, outerSteps]
  have hstep0 : stepAt cutoff t.dist t.terminals 0 [[]] = [[]] := by
    unfold stepAt
    simp
  rw [hstep0]
  have hmain := outerSteps_spec cutoff t.dist t.terminals lst hlast m 0 [] [] (by omega)
  simp only [List.nil_append, List.drop_zero, Nat.zero_add] at hmain
  show Except.ok (appendLast (outerSteps cutoff t.dist t.terminals 1 m [[]]) lst)
      = Except.ok (specSplitRuns (fun m => decide (t.dist (m + 1) m > cutoff)) 0 t.terminals)
  rw [hmain, mergeFirst_nil_left _ (specSplitRuns_ne_nil _ _ _)]

/-- Claim C2: on a tree with at least two terminals (distances being
symmetric, as tree distances are), `findSubgroups` returns the terminal
names in traversal order partitioned into contiguous runs, with a split
exactly after each terminal whose distance to the immediately following
terminal exceeds the cutoff; the last terminal is contributed by the
unconditional post-loop append. -/
theorem findSubgroups_splits (t : PyTree) (cutoff : ℚ)
    (hsym : ∀ a b, t.dist a b = t.dist b a)
    (h2 : 2 ≤ t.terminals.length) :
    findSubgroups t cutoff
      = .ok (specSplitRuns (fun j => decide (t.dist j (j + 1) > cutoff)) 0 t.terminals) := by
  have hne : t.terminals ≠ [] := by
    intro h
    rw [h] at h2
    simp at h2
  rw [findSubgroups_eq_spec t cutoff hne]
  have hfun : (fun m => decide (t.dist (m + 1) m > cutoff))
      = (fun j => decide (t.dist j (j + 1) > cutoff)) := by
    funext m
    rw [hsym]
  rw [hfun]

/-- Witness for C2 on the four-terminal demo tree, where only the
distance between the terminals at positions 1 and 2 exceeds the cutoff
1: the result splits into `[[A, B], [C, D]]`. -/
theorem findSubgroups_splits_witness :
    findSubgroups demoTree 1
      = .ok (specSplitRuns
          (fun j => decide (demoTree.dist j (j + 1) > (1 : ℚ))) 0 demoTree.terminals)
    ∧ specSplitRuns (fun j => decide (demoTree.dist j (j + 1) > (1 : ℚ))) 0
        demoTree.terminals = [["A", "B"], ["C", "D"]] :=
  ⟨findSubgroups_splits demoTree 1
      (fun a b => by
        show demoDist a b = demoDist b a
        unfold demoDist
        rw [Nat.add_comm a b, Nat.mul_comm a b])
      (by decide),
    by decide⟩

/-- Counterexample to C8 as stated: on a tree with zero terminals the
call does fail, but with an unbound-local name error — `target_j` is
referenced without ever having been assigned — not with an index error. -/
theorem findSubgroups_empty_counterexample :
    findSubgroups ⟨[], [], fun _ _ => 0⟩ (4 / 5) = .error .nameError
    ∧ (Except.error .nameError : Except PyError (List (List String)))
        ≠ .error .indexError :=
  ⟨rfl, fun h => PyError.noConfusion (Except.error.inj h)⟩

/-- Claim C8, amended: for every tree with zero terminals and every
cutoff, `findSubgroups` fails with an unbound-local-variable name error
(Python's `UnboundLocalError`, a `NameError`): the double loop never
executes and the unconditional post-loop append references the
never-bound inner-loop variable. -/
theorem findSubgroups_empty (t : PyTree) (cutoff : ℚ) (h : t.terminals = []) :
    findSubgroups t cutoff = .error .nameError := by
  simp [findSubgroups, h]

/-- Witness for C8 (amended) on a concrete empty tree. -/
theorem findSubgroups_empty_witness :
    findSubgroups ⟨[], [], fun _ _ => 0⟩ 1 = .error .nameError :=
  findSubgroups_empty ⟨[], [], fun _ _ => 0⟩ 1 rfl

/-- Claim C10: on a tree with exactly one terminal, `findSubgroups`
returns that terminal's name in a single subgroup, without raising: the
`i == j + 1` guard never fires, but the inner loop binds its variable to
the sole terminal, and the post-loop append places it in the only
subgroup. -/
theorem findSubgroups_single (t : PyTree) (cutoff : ℚ) (name : String)
    (h : t.terminals = [name]) :
    findSubgroups t cutoff = .ok [[name]] := by
  have hne : t.terminals ≠ [] := by
    rw [h]
    simp
  rw [findSubgroups_eq_spec t cutoff hne, h]
  rfl

/-- Witness for C10 on a concrete one-terminal tree. -/
theorem findSubgroups_single_witness :
    findSubgroups ⟨["Q"], [], fun _ _ => 0⟩ 2 = .ok [["Q"]] :=
  findSubgroups_single ⟨["Q"], [], fun _ _ => 0⟩ 2 "Q" rfl

end Catchall
